/-
Verification of the numerical-physics core of the Photoluminescence
repository (src/PL/EmissionSpectrum.py).

The Python methods of the `Photoluminescence` class are embedded as Lean
definitions over ℝ and ℂ (floating-point arithmetic is modelled by exact
real/complex arithmetic).  Lists model 1-D numpy arrays; `List.getD` with
default 0 models array indexing (the theorems carry the length hypotheses
under which the Python code does not raise an IndexError).
-/
import Mathlib

noncomputable section

namespace Photoluminescence

/-- Embedding of `TimeScaling(t, reverse)` (EmissionSpectrum.py lines 173-179):
`t/658.2119` when `reverse == False`, else `t*658.2119`. -/
def TimeScaling (t : ℝ) (reverse : Bool) : ℝ :=
  if reverse = false then t / 658.2119 else t * 658.2119

/-- Embedding of `FreqToEnergy(freqs)` (lines 166-170): elementwise `4.13566*f`. -/
def FreqToEnergy (freqs : List ℝ) : List ℝ :=
  freqs.map (fun f => 4.13566 * f)

/-- Embedding of `PartialHR(freqs, qk)` (lines 213-218): the elementwise numpy
expression `2*np.pi*freqs*(qk**2)*0.166/(2*1.05457)`. -/
def PartialHR (freqs qk : List ℝ) : List ℝ :=
  List.zipWith (fun f q => 2 * Real.pi * f * q ^ 2 * 0.166 / (2 * 1.05457)) freqs qk

/-- Embedding of `Trapezoidal(integrand, iv, equally_spaced)` (lines 151-163).
`div = iv[1] - iv[0]`; the `equally_spaced` branch returns
`(div/2)*(np.sum(integrand[1:-1]) + integrand[0] + integrand[-1])`
(note: the interior samples are summed once, exactly as in the source), the
other branch sums per-interval trapezoids.  The integrand is complex (as in
`LuminescenceIntensity`); a real integrand is embedded via the coercion ℝ → ℂ. -/
def Trapezoidal (integrand : List ℂ) (iv : List ℝ) (equally_spaced : Bool) : ℂ :=
  let div : ℝ := iv.getD 1 0 - iv.getD 0 0
  if equally_spaced then
    ((div / 2 : ℝ) : ℂ) *
      (((integrand.drop 1).dropLast).sum + integrand.getD 0 0 +
        integrand.getD (integrand.length - 1) 0)
  else
    ((List.range (iv.length - 1)).map (fun i =>
      (((iv.getD (i + 1) 0 - iv.getD i 0) / 2 : ℝ) : ℂ) *
        (integrand.getD (i + 1) 0 + integrand.getD i 0))).sum

/-- Embedding of `np.arange(start, stop, step)` for real `step ≠ 0`:
`⌈(stop-start)/step⌉` points (none when that quantity is nonpositive),
the i-th being `start + i*step`. -/
def arange (start stop step : ℝ) : List ℝ :=
  (List.range (⌈(stop - start) / step⌉.toNat)).map (fun i : ℕ => start + (i : ℝ) * step)

/-- Embedding of `IV(iv_low, iv_high, rv_high)` (lines 96-113):
`div = (2*np.pi)/(2*rv_high)` followed by `np.arange(iv_low, iv_high, div)`.
The Python division raises `ZeroDivisionError` when `rv_high = 0` (modelled by
`none`); for every other `rv_high` the call returns a (possibly empty) array. -/
def IV (iv_low iv_high rv_high : ℝ) : Option (List ℝ) :=
  if rv_high = 0 then none
  else some (arange iv_low iv_high ((2 * Real.pi) / (2 * rv_high)))

/-! ### Small list lemmas -/

theorem getD_map_range {α : Type} (g : ℕ → α) (n i : ℕ) (d : α) (h : i < n) :
    ((List.range n).map g).getD i d = g i := by
  rw [List.getD_eq_getElem?_getD, List.getElem?_map, List.getElem?_range h]
  rfl

theorem getD_zipWith {α : Type} (g : α → α → α) (a b : List α) (i : ℕ) (d : α)
    (ha : i < a.length) (hb : i < b.length) :
    (List.zipWith g a b).getD i d = g (a.getD i d) (b.getD i d) := by
  have hlen : i < (List.zipWith g a b).length := by
    simp [List.length_zipWith]; omega
  rw [List.getD_eq_getElem?_getD, List.getElem?_zipWith]
  rw [List.getElem?_eq_getElem ha, List.getElem?_eq_getElem hb]
  simp [List.getD_eq_getElem?_getD, List.getElem?_eq_getElem ha,
    List.getElem?_eq_getElem hb]

/-! ### C9: TimeScaling round trip -/

/-- C9: for every real time value `t`, the reverse direction of `TimeScaling`
is the exact inverse of the forward direction under exact real arithmetic:
`TimeScaling (TimeScaling t false) true = t` (division then multiplication by
the constant 658.2119). -/
theorem TimeScaling_roundtrip (t : ℝ) : TimeScaling (TimeScaling t false) true = t := by
  simp only [TimeScaling, if_pos rfl]
  norm_num

/-! ### C3: PartialHR formula -/

/-- C3: for equal-length `freqs` and `qk`, `PartialHR` returns, for each mode
`k`, `Sk = 2*π*f_k*qk_k^2*0.166/(2*1.05457)`; consequently a mode with
`qk_k = 0` has `Sk = 0` and a mode with `f_k = 0` has `Sk = 0`. -/
theorem PartialHR_spec (freqs qk : List ℝ) (hlen : freqs.length = qk.length)
    (k : ℕ) (hk : k < freqs.length) :
    (PartialHR freqs qk).getD k 0 =
      2 * Real.pi * freqs.getD k 0 * (qk.getD k 0) ^ 2 * 0.166 / (2 * 1.05457) ∧
    (qk.getD k 0 = 0 → (PartialHR freqs qk).getD k 0 = 0) ∧
    (freqs.getD k 0 = 0 → (PartialHR freqs qk).getD k 0 = 0) := by
  have h := getD_zipWith
    (fun f q => 2 * Real.pi * f * q ^ 2 * 0.166 / (2 * 1.05457)) freqs qk k 0
    hk (hlen ▸ hk)
  refine ⟨h, ?_, ?_⟩
  · intro h0; rw [PartialHR, h, h0]; ring
  · intro h0; rw [PartialHR, h, h0]; ring

/-- Witness for C3 at `freqs = [1, 0]`, `qk = [0, 2]`: mode 0 has `qk = 0`
hence `Sk = 0`, mode 1 has frequency 0 hence `Sk = 0`. -/
theorem PartialHR_spec_witness :
    (PartialHR [(1 : ℝ), 0] [0, 2]).getD 0 0 = 0 ∧
    (PartialHR [(1 : ℝ), 0] [0, 2]).getD 1 0 = 0 := by
  constructor
  · exact (PartialHR_spec [1, 0] [0, 2] (by simp) 0 (by simp)).2.1 (by simp)
  · exact (PartialHR_spec [1, 0] [0, 2] (by simp) 1 (by simp)).2.2 (by simp)

/-! ### C8 / C10: the uniform-grid branch of Trapezoidal

The `equally_spaced` branch sums the interior samples once
(`np.sum(integrand[1:-1]) + integrand[0] + integrand[-1]`), whereas the
closed trapezoidal rule doubles them; the two branches therefore disagree
as soon as the interior sum is nonzero. -/

/-- C8 (failing-input evaluation): for the constant integrand `1` sampled at
the 3 equally spaced points `[0, 1, 2]` of `[0, 2]`, the uniform-grid branch
of `Trapezoidal` returns `3/2`, not `c*(b-a) = 2`: the interior sample is
counted once instead of twice. -/
theorem Trapezoidal_const_not_exact :
    Trapezoidal [1, 1, 1] [0, 1, 2] true = 3 / 2 ∧ (3 / 2 : ℂ) ≠ 2 := by
  constructor
  · simp only [Trapezoidal, if_pos rfl]
    norm_num
  · norm_num

/-- C10 (failing-input evaluation): on the uniformly spaced grid `[0, 1, 2]`
with integrand `[1, 1, 1]`, the two branches of `Trapezoidal` disagree: the
`equally_spaced = true` branch returns `3/2` while the per-interval branch
returns `2`. -/
theorem Trapezoidal_branches_disagree :
    Trapezoidal [1, 1, 1] [0, 1, 2] true ≠ Trapezoidal [1, 1, 1] [0, 1, 2] false := by
  have h1 : Trapezoidal [1, 1, 1] [0, 1, 2] true = 3 / 2 := by
    simp only [Trapezoidal, if_pos rfl]
    norm_num
  have h2 : Trapezoidal [1, 1, 1] [0, 1, 2] false = 2 := by
    simp only [Trapezoidal, Bool.false_eq_true, if_neg, List.length_cons,
      List.length_nil, List.range_succ, List.range_zero]
    norm_num [List.range_succ]
  rw [h1, h2]
  norm_num

/-! ### C4: the grid produced by IV -/

/-- C4: for `low < high` and `rv_high > 0`, `IV low high rv_high` returns a
nonempty grid whose first sample is `low`, whose consecutive samples differ by
exactly `π / rv_high`, and all of whose samples are strictly below `high`. -/
theorem IV_spec (low high rv : ℝ) (hlh : low < high) (hrv : 0 < rv) :
    ∃ l, IV low high rv = some l ∧ l ≠ [] ∧ l.getD 0 0 = low ∧
      (∀ i, i + 1 < l.length → l.getD (i + 1) 0 - l.getD i 0 = Real.pi / rv) ∧
      (∀ x ∈ l, x < high) := by
  have hrv' : rv ≠ 0 := ne_of_gt hrv
  have hstep : (2 * Real.pi) / (2 * rv) = Real.pi / rv := by
    field_simp
    ring
  have hpos : 0 < Real.pi / rv := div_pos Real.pi_pos hrv
  have hratio : 0 < (high - low) / (Real.pi / rv) := div_pos (by linarith) hpos
  have hN1 : 1 ≤ (⌈(high - low) / (Real.pi / rv)⌉).toNat := by
    have h1 : (0 : ℤ) < ⌈(high - low) / (Real.pi / rv)⌉ :=
      Int.lt_ceil.mpr (by exact_mod_cast hratio)
    omega
  refine ⟨arange low high (Real.pi / rv), ?_, ?_, ?_, ?_, ?_⟩
  · simp only [IV, if_neg hrv', hstep]
  · simp only [arange]
    intro hcon
    have := congrArg List.length hcon
    simp only [List.length_map, List.length_range, List.length_nil] at this
    omega
  · simp only [arange]
    rw [getD_map_range _ _ _ _ (by omega)]
    simp
  · intro i hi
    simp only [arange, List.length_map, List.length_range] at hi ⊢
    rw [getD_map_range _ _ _ _ hi, getD_map_range _ _ _ _ (by omega)]
    push_cast
    ring
  · intro x hx
    simp only [arange, List.mem_map, List.mem_range] at hx
    obtain ⟨i, hi, rfl⟩ := hx
    have hlt : (i : ℝ) < (high - low) / (Real.pi / rv) := by
      have h1 : (i : ℤ) < ⌈(high - low) / (Real.pi / rv)⌉ := by omega
      exact_mod_cast Int.lt_ceil.mp h1
    have : (i : ℝ) * (Real.pi / rv) < high - low := by
      calc (i : ℝ) * (Real.pi / rv) < ((high - low) / (Real.pi / rv)) * (Real.pi / rv) :=
            mul_lt_mul_of_pos_right hlt hpos
        _ = high - low := div_mul_cancel₀ _ (ne_of_gt hpos)
    linarith

/-- Witness for C4 at `low = 0`, `high = 2`, `rv_high = π` (step 1). -/
theorem IV_spec_witness :
    ∃ l, IV 0 2 Real.pi = some l ∧ l ≠ [] ∧ l.getD 0 0 = 0 ∧
      (∀ i, i + 1 < l.length → l.getD (i + 1) 0 - l.getD i 0 = Real.pi / Real.pi) ∧
      (∀ x ∈ l, x < 2) :=
  IV_spec 0 2 Real.pi (by norm_num) Real.pi_pos

/-! ### C5: IV on degenerate inputs

The claim that `IV` fails whenever `max_reciprocal ≤ 0` or `high ≤ low` does
not hold: only `rv_high = 0` raises (a ZeroDivisionError); every other input
yields a (possibly empty) `np.arange` result. -/

/-- C5 counterexample: at `low = 0 < 1 = high` and `max_reciprocal = -1 ≤ 0`,
`IV` does not fail — it returns the empty grid. -/
theorem IV_neg_reciprocal_no_error : IV 0 1 (-1) = some [] := by
  have hne : (-1 : ℝ) ≠ 0 := by norm_num
  simp only [IV, if_neg hne, arange, Option.some.injEq]
  have hstep : (2 * Real.pi) / (2 * (-1 : ℝ)) = -Real.pi := by
    field_simp
    ring
  rw [hstep]
  have hle : ((1 : ℝ) - 0) / (-Real.pi) ≤ 0 := by
    apply div_nonpos_of_nonneg_of_nonpos <;> [norm_num; linarith [Real.pi_pos]]
  have : ⌈((1 : ℝ) - 0) / (-Real.pi)⌉.toNat = 0 := by
    have h0 : ⌈((1 : ℝ) - 0) / (-Real.pi)⌉ ≤ (0 : ℤ) := Int.ceil_le.mpr (by exact_mod_cast hle)
    omega
  rw [this]
  simp

/-- C5 amended: `IV` fails exactly when `max_reciprocal = 0`; for every
nonzero `max_reciprocal` it returns a sequence, and in particular it returns
the empty sequence (rather than raising) when `max_reciprocal > 0` with
`high ≤ low`, or when `max_reciprocal < 0` with `low < high`. -/
theorem IV_failure_spec (low high rv : ℝ) (hrv : rv ≠ 0) :
    IV low high 0 = none ∧
    (∃ l, IV low high rv = some l) ∧
    (0 < rv → high ≤ low → IV low high rv = some []) ∧
    (rv < 0 → low < high → IV low high rv = some []) := by
  refine ⟨by simp [IV], ⟨arange low high ((2 * Real.pi) / (2 * rv)), by simp [IV, hrv]⟩,
    ?_, ?_⟩
  · intro hpos hle
    have hstep : 0 < (2 * Real.pi) / (2 * rv) := by
      apply div_pos <;> [linarith [Real.pi_pos]; linarith]
    have hle' : (high - low) / ((2 * Real.pi) / (2 * rv)) ≤ 0 := by
      apply div_nonpos_of_nonpos_of_nonneg <;> linarith
    have h0 : ⌈(high - low) / ((2 * Real.pi) / (2 * rv))⌉.toNat = 0 := by
      have h1 : ⌈(high - low) / ((2 * Real.pi) / (2 * rv))⌉ ≤ (0 : ℤ) :=
        Int.ceil_le.mpr (by exact_mod_cast hle')
      omega
    simp [IV, if_neg hrv, arange, h0]
  · intro hneg hlt
    have hstep : (2 * Real.pi) / (2 * rv) < 0 := by
      apply div_neg_of_pos_of_neg <;> [linarith [Real.pi_pos]; linarith]
    have hle' : (high - low) / ((2 * Real.pi) / (2 * rv)) ≤ 0 := by
      apply le_of_lt
      apply div_neg_of_pos_of_neg <;> linarith
    have h0 : ⌈(high - low) / ((2 * Real.pi) / (2 * rv))⌉.toNat = 0 := by
      have h1 : ⌈(high - low) / ((2 * Real.pi) / (2 * rv))⌉ ≤ (0 : ℤ) :=
        Int.ceil_le.mpr (by exact_mod_cast hle')
      omega
    simp [IV, if_neg hrv, arange, h0]

/-- Witness for C5 (amended) at `rv_high = 1`, `low = 1`, `high = 0`:
`IV` returns the empty grid instead of failing. -/
theorem IV_failure_spec_witness : IV 1 0 1 = some [] :=
  (IV_failure_spec 1 0 1 (by norm_num)).2.2.1 (by norm_num) (by norm_num)

/-! ### C2: LuminescenceIntensity normalization -/

/-- Embedding of the two boolean-mask lines of `LuminescenceIntensity`
(lines 270-271): `A_E[(E_meV >= zpl-500) & (E_meV <= zpl+100)]` and
`E_meV[(E_meV >= zpl-500) & (E_meV <= zpl+100)]`.  numpy's positional boolean
masking of `A_E` by the mask of `E_meV` (defined when the arrays have equal
length) is modelled by filtering the zipped list on the energy component. -/
def LumFilter (E_meV : List ℝ) (A_E : List ℂ) (zpl : ℝ) : List ℝ × List ℂ :=
  (E_meV.filter (fun e => decide (zpl - 500 ≤ e ∧ e ≤ zpl + 100)),
   ((E_meV.zip A_E).filter (fun p => decide (zpl - 500 ≤ p.1 ∧ p.1 ≤ zpl + 100))).map
     Prod.snd)

/-- The `E³`-weighted restricted curve `(E_meV**3)*A_E` of line 272. -/
def LumWeighted (E_meV : List ℝ) (A_E : List ℂ) (zpl : ℝ) : List ℂ :=
  List.zipWith (fun e a => ((e : ℝ) : ℂ) ^ 3 * a)
    (LumFilter E_meV A_E zpl).1 (LumFilter E_meV A_E zpl).2

/-- Embedding of `LuminescenceIntensity(E_meV, A_E, zpl)` (lines 265-273):
restrict to the window `[zpl-500, zpl+100]`, weight by `E**3`, divide by the
`Trapezoidal` integral of the weighted curve over the restricted grid. -/
def LuminescenceIntensity (E_meV : List ℝ) (A_E : List ℂ) (zpl : ℝ) :
    List ℝ × List ℂ :=
  ((LumFilter E_meV A_E zpl).1,
   (LumWeighted E_meV A_E zpl).map
     (fun w => w / Trapezoidal (LumWeighted E_meV A_E zpl) (LumFilter E_meV A_E zpl).1
       true))

theorem getD_map_div (l : List ℂ) (c : ℂ) (i : ℕ) :
    (l.map (fun w => w / c)).getD i 0 = l.getD i 0 / c := by
  rcases lt_or_ge i l.length with h | h
  · rw [List.getD_eq_getElem?_getD, List.getElem?_map, List.getElem?_eq_getElem h]
    simp [List.getD_eq_getElem?_getD, List.getElem?_eq_getElem h]
  · have h1 : (l.map fun w => w / c).getD i 0 = 0 := by
      apply List.getD_eq_default
      simpa using h
    have h2 : l.getD i 0 = 0 := List.getD_eq_default _ _ h
    rw [h1, h2, zero_div]

theorem sum_map_div {α : Type} (l : List α) (g : α → ℂ) (c : ℂ) :
    (l.map (fun x => g x / c)).sum = (l.map g).sum / c := by
  induction l with
  | nil => simp
  | cons a t ih => simp [ih, add_div]

/-- Unfolding of the uniform-grid branch of `Trapezoidal`. -/
theorem Trapezoidal_true (integrand : List ℂ) (iv : List ℝ) :
    Trapezoidal integrand iv true =
      (((iv.getD 1 0 - iv.getD 0 0) / 2 : ℝ) : ℂ) *
        (((integrand.drop 1).dropLast).sum + integrand.getD 0 0 +
          integrand.getD (integrand.length - 1) 0) := rfl

/-- Unfolding of the non-uniform branch of `Trapezoidal`. -/
theorem Trapezoidal_false (integrand : List ℂ) (iv : List ℝ) :
    Trapezoidal integrand iv false =
      ((List.range (iv.length - 1)).map (fun i =>
        (((iv.getD (i + 1) 0 - iv.getD i 0) / 2 : ℝ) : ℂ) *
          (integrand.getD (i + 1) 0 + integrand.getD i 0))).sum := rfl

/-- Linearity of `Trapezoidal` in the integrand: dividing every sample by `c`
divides either branch's result by `c`. -/
theorem Trapezoidal_map_div (l : List ℂ) (iv : List ℝ) (c : ℂ) (b : Bool) :
    Trapezoidal (l.map (fun w => w / c)) iv b = Trapezoidal l iv b / c := by
  cases b with
  | true =>
    rw [Trapezoidal_true, Trapezoidal_true]
    rw [← List.map_drop, ← List.map_dropLast, List.length_map]
    rw [show (l.drop 1).dropLast.map (fun w => w / c) =
      (l.drop 1).dropLast.map (fun w => id w / c) from rfl, sum_map_div, List.map_id]
    rw [getD_map_div, getD_map_div]
    ring
  | false =>
    rw [Trapezoidal_false, Trapezoidal_false]
    rw [List.map_congr_left (fun i (_ : i ∈ List.range (iv.length - 1)) => by
      rw [getD_map_div, getD_map_div]
      ring : ∀ i ∈ List.range (iv.length - 1),
        (((iv.getD (i + 1) 0 - iv.getD i 0) / 2 : ℝ) : ℂ) *
          ((l.map (fun w => w / c)).getD (i + 1) 0 + (l.map (fun w => w / c)).getD i 0) =
        ((((iv.getD (i + 1) 0 - iv.getD i 0) / 2 : ℝ) : ℂ) *
          (l.getD (i + 1) 0 + l.getD i 0)) / c)]
    rw [sum_map_div]

/-- C2: whenever the restricted energy grid has at least 2 points and the
Trapezoidal integral of the `E³`-weighted restricted curve is nonzero, the
`L(E)` returned by `LuminescenceIntensity` satisfies
`Trapezoidal L(E) (restricted grid) = 1` exactly (so in particular within
1e-6) under exact arithmetic. -/
theorem LuminescenceIntensity_normalized (E_meV : List ℝ) (A_E : List ℂ) (zpl : ℝ)
    (h2 : 2 ≤ (LumFilter E_meV A_E zpl).1.length)
    (hT : Trapezoidal (LumWeighted E_meV A_E zpl) (LumFilter E_meV A_E zpl).1 true ≠ 0) :
    Trapezoidal (LuminescenceIntensity E_meV A_E zpl).2
      (LuminescenceIntensity E_meV A_E zpl).1 true = 1 := by
  simp only [LuminescenceIntensity]
  rw [Trapezoidal_map_div]
  exact div_self hT

/-- Witness for C2 at `E_meV = [0, 1]`, `A_E = [1, 1]`, `zpl = 500`: both grid
points fall in the window `[0, 600]`, the weighted curve is `[0, 1]` with
Trapezoidal integral `1/2 ≠ 0`, and the returned `L(E)` integrates to 1. -/
theorem LuminescenceIntensity_normalized_witness :
    Trapezoidal (LuminescenceIntensity [0, 1] [1, 1] 500).2
      (LuminescenceIntensity [0, 1] [1, 1] 500).1 true = 1 := by
  apply LuminescenceIntensity_normalized
  · norm_num [LumFilter, List.filter_cons, List.filter_nil, decide_eq_true_eq]
  · norm_num [LumFilter, LumWeighted, Trapezoidal, List.filter_cons, List.filter_nil,
      decide_eq_true_eq]

/-! ### C6: ConfigCoordinates and shape mismatches -/

/-- Componentwise difference of two 3-vectors (a row of `R_es - R_gs`). -/
def v3sub (a b : ℝ × ℝ × ℝ) : ℝ × ℝ × ℝ :=
  (a.1 - b.1, a.2.1 - b.2.1, a.2.2 - b.2.2)

/-- Scaling of a 3-vector (a row of `masses[i]*R_diff[i,:]`). -/
def v3smul (c : ℝ) (a : ℝ × ℝ × ℝ) : ℝ × ℝ × ℝ :=
  (c * a.1, c * a.2.1, c * a.2.2)

/-- Sum of the componentwise product of two 3-vectors (one row's contribution
to `np.sum(mR_diff*modes[i,:,:])`). -/
def v3dot (a b : ℝ × ℝ × ℝ) : ℝ :=
  a.1 * b.1 + a.2.1 * b.2.1 + a.2.2 * b.2.2

/-- numpy broadcasting of two arrays of shape `(n, 3)` and `(m, 3)` along the
leading axis: rows pair up when `n = m`; a single row is repeated against the
other array; otherwise the operation raises a broadcast `ValueError`
(modelled by `none`). -/
def broadcastRows (x y : List (ℝ × ℝ × ℝ)) :
    Option (List ((ℝ × ℝ × ℝ) × (ℝ × ℝ × ℝ))) :=
  if x.length = y.length then some (x.zip y)
  else if x.length = 1 then some (y.map (fun b => (x.getD 0 (0, 0, 0), b)))
  else if y.length = 1 then some (x.map (fun a => (a, y.getD 0 (0, 0, 0))))
  else none

/-- Sequencing of a list of per-mode results, each of which may raise
(Python evaluates the list comprehension left to right and propagates the
first exception): `some` of the collected values when every entry is `some`,
`none` otherwise. -/
def optList {α : Type} : List (Option α) → Option (List α)
  | [] => some []
  | none :: _ => none
  | some a :: t => (optList t).map (fun r => a :: r)

/-- Embedding of `ConfigCoordinates(masses, R_es, R_gs, modes)` (lines 200-210).
`R_es - R_gs` broadcasts rows; the Python list comprehension
`[masses[i]*R_diff[i,:] for i in range(len(masses))]` raises an IndexError
when `len(masses)` exceeds the number of displacement rows (modelled by
`none`) and silently uses only the first `len(masses)` rows otherwise; each
`np.sum(mR_diff*modes[i,:,:])` broadcasts rows.  `none` models the run
raising; `some qk` models the returned array. -/
def ConfigCoordinates (masses : List ℝ) (R_es R_gs : List (ℝ × ℝ × ℝ))
    (modes : List (List (ℝ × ℝ × ℝ))) : Option (List ℝ) :=
  match broadcastRows R_es R_gs with
  | none => none
  | some pairs =>
    let R_diff := pairs.map (fun p => v3sub p.1 p.2)
    if masses.length ≤ R_diff.length then
      let mR_diff := (List.range masses.length).map
        (fun i => v3smul (Real.sqrt (masses.getD i 0)) (R_diff.getD i (0, 0, 0)))
      optList (modes.map (fun mode =>
        (broadcastRows mR_diff mode).map (fun ps => (ps.map (fun p => v3dot p.1 p.2)).sum)))
    else none

theorem broadcastRows_eq_len (x y : List (ℝ × ℝ × ℝ)) (h : x.length = y.length) :
    broadcastRows x y = some (x.zip y) := by
  simp only [broadcastRows, if_pos h]

theorem broadcastRows_left_one (x y : List (ℝ × ℝ × ℝ)) (hne : x.length ≠ y.length)
    (h1 : x.length = 1) :
    broadcastRows x y = some (y.map (fun b => (x.getD 0 (0, 0, 0), b))) := by
  simp only [broadcastRows, if_neg hne, if_pos h1]

theorem broadcastRows_right_one (x y : List (ℝ × ℝ × ℝ)) (hne : x.length ≠ y.length)
    (hx : x.length ≠ 1) (hy : y.length = 1) :
    broadcastRows x y = some (x.map (fun a => (a, y.getD 0 (0, 0, 0)))) := by
  simp only [broadcastRows, if_neg hne, if_neg hx, if_pos hy]

theorem map_isSome {α β : Type} (f : α → β) (o : Option α) (x : α) (h : o = some x) :
    ∃ b, o.map f = some b :=
  ⟨f x, by rw [h]; rfl⟩

theorem optList_isSome {α : Type} (l : List (Option α))
    (h : ∀ o ∈ l, ∃ b, o = some b) :
    ∃ bs, optList l = some bs ∧ bs.length = l.length := by
  induction l with
  | nil => exact ⟨[], rfl, rfl⟩
  | cons o t ih =>
    obtain ⟨b, hb⟩ := h o (List.mem_cons_self o t)
    obtain ⟨bs, hbs, hlen⟩ := ih (fun x hx => h x (List.mem_cons_of_mem o hx))
    subst hb
    refine ⟨b :: bs, ?_, by simp [hlen]⟩
    simp only [optList, hbs]
    rfl

/-- C6 counterexample: with one mass, two displacement rows and a one-atom
eigenvector block (`len(masses) = 1 ≠ 2` displacement rows), the code does not
fail — it silently drops the second displacement row and returns the value
`[0]` computed from the truncated arrays. -/
theorem ConfigCoordinates_mismatch_no_error :
    ConfigCoordinates [1] [(0, 0, 0), (1, 0, 0)] [(0, 0, 0), (0, 0, 0)]
      [[(1, 0, 0)]] = some [0] := by
  simp [ConfigCoordinates, broadcastRows, v3sub, v3smul, v3dot, optList, List.range_succ]

/-- C6 amended: with agreeing `R_es`/`R_gs` row counts, `ConfigCoordinates`
raises only when `len(masses)` exceeds the number of displacement rows; when
`len(masses)` is at most the row count (extra rows being silently truncated)
and every eigenvector block has `len(masses)` rows, or a single row, or
`len(masses) = 1` (numpy broadcasting), a value is returned rather than a
shape-mismatch error. -/
theorem ConfigCoordinates_behaviour (masses : List ℝ) (R_es R_gs : List (ℝ × ℝ × ℝ))
    (modes : List (List (ℝ × ℝ × ℝ))) (hR : R_es.length = R_gs.length) :
    (R_es.length < masses.length → ConfigCoordinates masses R_es R_gs modes = none) ∧
    (masses.length ≤ R_es.length →
      (∀ mode ∈ modes, mode.length = masses.length ∨ mode.length = 1 ∨ masses.length = 1) →
      ∃ qk, ConfigCoordinates masses R_es R_gs modes = some qk ∧
        qk.length = modes.length) := by
  have hbr : broadcastRows R_es R_gs = some (R_es.zip R_gs) := broadcastRows_eq_len _ _ hR
  have hzlen : (R_es.zip R_gs).length = R_es.length := by
    simp [List.length_zip, hR]
  constructor
  · intro hlt
    simp only [ConfigCoordinates, hbr]
    rw [if_neg]
    simp only [List.length_map, hzlen]
    omega
  · intro hle hmodes
    simp only [ConfigCoordinates, hbr]
    rw [if_pos (by simp only [List.length_map, hzlen]; omega)]
    have key := optList_isSome (α := ℝ) ((modes.map (fun mode =>
      (broadcastRows ((List.range masses.length).map
        (fun i => v3smul (Real.sqrt (masses.getD i 0))
          (((R_es.zip R_gs).map (fun p => v3sub p.1 p.2)).getD i (0, 0, 0)))) mode).map
        (fun ps => (ps.map (fun p => v3dot p.1 p.2)).sum)))) ?_
    · obtain ⟨bs, hbs, hlen⟩ := key
      exact ⟨bs, hbs, by rw [hlen, List.length_map]⟩
    · intro o ho
      rw [List.mem_map] at ho
      obtain ⟨mode, hmode, rfl⟩ := ho
      have hmR : ((List.range masses.length).map
          (fun i => v3smul (Real.sqrt (masses.getD i 0))
            (((R_es.zip R_gs).map (fun p => v3sub p.1 p.2)).getD i (0, 0, 0)))).length =
          masses.length := by
        simp
      rcases hmodes mode hmode with h | h | h
      · exact map_isSome _ _ _ (broadcastRows_eq_len _ _ (by rw [hmR, h]))
      · by_cases hsame : masses.length = mode.length
        · exact map_isSome _ _ _ (broadcastRows_eq_len _ _ (by rw [hmR, hsame]))
        · exact map_isSome _ _ _ (broadcastRows_right_one _ _
            (by rw [hmR]; exact hsame) (by rw [hmR]; omega) h)
      · by_cases hsame : masses.length = mode.length
        · exact map_isSome _ _ _ (broadcastRows_eq_len _ _ (by rw [hmR, hsame]))
        · exact map_isSome _ _ _ (broadcastRows_left_one _ _
            (by rw [hmR]; exact hsame) (by rw [hmR, h]))

/-- Witness for C6 (amended): the truncation input of the counterexample
satisfies the hypotheses, so a value (not an error) is produced. -/
theorem ConfigCoordinates_behaviour_witness :
    ∃ qk, ConfigCoordinates [1] [(0, 0, 0), (1, 0, 0)] [(0, 0, 0), (0, 0, 0)]
      [[(1, 0, 0)]] = some qk ∧ qk.length = 1 := by
  have h := (ConfigCoordinates_behaviour [1] [(0, 0, 0), (1, 0, 0)]
    [(0, 0, 0), (0, 0, 0)] [[(1, 0, 0)]] (by simp)).2 (by simp)
    (by intro mode hmode; simp at hmode; subst hmode; left; simp)
  simpa using h

/-! ### C7: CalculateSpectrum keeps only the first half of the mode list -/

/-- Embedding of the Huang-Rhys part of `CalculateSpectrum` (lines 291-299):
`freqs = freqs[:int(freqs.shape[0]/2)]`, `modes = modes[:int(modes.shape[0]/2)]`
(`int(n/2)` truncates, i.e. `⌊n/2⌋`), then `Ek = FreqToEnergy(freqs)`,
`qk = ConfigCoordinates(masses, R_es, R_gs, modes)`, `Sk = PartialHR(freqs, qk)`.
The mass sequence is passed through untruncated. -/
def CalculateSpectrumCore (masses : List ℝ) (R_es R_gs : List (ℝ × ℝ × ℝ))
    (freqs : List ℝ) (modes : List (List (ℝ × ℝ × ℝ))) :
    List ℝ × Option (List ℝ) × Option (List ℝ) :=
  let freqs2 := freqs.take (freqs.length / 2)
  let modes2 := modes.take (modes.length / 2)
  let Ek := FreqToEnergy freqs2
  let qk := ConfigCoordinates masses R_es R_gs modes2
  let Sk := qk.map (fun q => PartialHR freqs2 q)
  (Ek, qk, Sk)

/-- C7: the pipeline is a function of only the first `⌊n/2⌋` frequencies and
the first `⌊n/2⌋` eigenvector blocks: any two mode lists of the same lengths
agreeing up to the midpoint produce identical results; the retained energy
list has length `⌊n/2⌋`; and `ConfigCoordinates` receives the full,
untruncated mass sequence together with the truncated mode list. -/
theorem CalculateSpectrumCore_truncation (masses : List ℝ)
    (R_es R_gs : List (ℝ × ℝ × ℝ)) (freqs freqs' : List ℝ)
    (modes modes' : List (List (ℝ × ℝ × ℝ)))
    (h1 : freqs'.length = freqs.length) (h2 : modes'.length = modes.length)
    (h3 : freqs'.take (freqs.length / 2) = freqs.take (freqs.length / 2))
    (h4 : modes'.take (modes.length / 2) = modes.take (modes.length / 2)) :
    CalculateSpectrumCore masses R_es R_gs freqs' modes' =
      CalculateSpectrumCore masses R_es R_gs freqs modes ∧
    (CalculateSpectrumCore masses R_es R_gs freqs modes).1.length = freqs.length / 2 ∧
    (CalculateSpectrumCore masses R_es R_gs freqs modes).2.1 =
      ConfigCoordinates masses R_es R_gs (modes.take (modes.length / 2)) := by
  refine ⟨?_, ?_, rfl⟩
  · simp only [CalculateSpectrumCore, h1, h2, h3, h4]
  · simp only [CalculateSpectrumCore, FreqToEnergy, List.length_map, List.length_take]
    omega

/-- Witness for C7: `freqs = [1, 2]` and `freqs' = [1, 7]` differ beyond the
midpoint yet give identical results, with one retained mode energy. -/
theorem CalculateSpectrumCore_truncation_witness :
    CalculateSpectrumCore [] [] [] [1, 7] [] = CalculateSpectrumCore [] [] [] [1, 2] [] ∧
    (CalculateSpectrumCore [] [] [] [1, 2] []).1.length = [(1 : ℝ), 2].length / 2 ∧
    (CalculateSpectrumCore [] [] [] [1, 2] []).2.1 =
      ConfigCoordinates [] [] []
        (([] : List (List (ℝ × ℝ × ℝ))).take (([] : List (List (ℝ × ℝ × ℝ))).length / 2)) :=
  CalculateSpectrumCore_truncation [] [] [] [1, 2] [1, 7] [] [] rfl rfl rfl rfl

/-! ### C1: the continuous-Fourier-transform approximation

`Fourier` computes `rv = 2*np.pi*np.fft.fftfreq(len(iv), div)`, sorts it
ascending together with `np.fft.fft(function)`, scales by `div` and applies
the phase `exp(-1j*rv*iv[0])`; `InverseFourier` mirrors it with `np.fft.ifft`
and phase `exp(+1j*rv*iv[0])`. -/

/-- The integer numerator of `np.fft.fftfreq(n, d)[k]`, whose value is
`fftfreqNum n k / (n*d)`: the frequencies are `0, 1, …, ⌈n/2⌉-1` followed by
`-⌊n/2⌋, …, -1` (in units of `1/(n·d)`). -/
def fftfreqNum (n k : ℕ) : ℤ :=
  if k < (n + 1) / 2 then (k : ℤ) else (k : ℤ) - n

/-- The permutation `sort = np.argsort(rv)` for an `np.fft.fftfreq` array
with positive spacing: ascending order of the numerators is the cyclic
rotation `j ↦ (j + ⌈n/2⌉) % n` (justified by `sortPerm_is_argsort`). -/
def sortPerm (n j : ℕ) : ℕ := (j + (n + 1) / 2) % n

/-- The permutation `sort = np.argsort(rv)` for `rv = 2π·fftfreq(n, d)`,
whose entries are `2π·fftfreqNum(k)/(n·d)`: for `d > 0` ascending frequency
is ascending numerator (`sortPerm`); for `d < 0` the factor `1/(n·d)` is
negative, so ascending frequency is **descending** numerator, the reversed
permutation `j ↦ (⌈n/2⌉ - 1 + n - j) % n`.  Both branches are justified by
`argsortFFT_is_argsort`.  (For `d = 0` numpy's `fftfreq` divides by zero —
a degenerate grid outside the modelled domain; the ascending branch is a
vacuous default there.) -/
def argsortFFT (n : ℕ) (d : ℝ) (j : ℕ) : ℕ :=
  if d < 0 then ((n + 1) / 2 - 1 + n - j) % n else sortPerm n j

/-- `np.fft.fft`: `F[k] = Σ_m f[m]·exp(-2πi·k·m/n)`. -/
def fft (f : List ℂ) : List ℂ :=
  (List.range f.length).map (fun k : ℕ =>
    ((List.range f.length).map (fun m : ℕ =>
      f.getD m 0 *
        Complex.exp (-(2 * (Real.pi : ℂ) * Complex.I * (k : ℂ) * (m : ℂ)) / f.length))).sum)

/-- `np.fft.ifft`: `a[m] = (1/n)·Σ_k A[k]·exp(2πi·k·m/n)`. -/
def ifft (F : List ℂ) : List ℂ :=
  (List.range F.length).map (fun m : ℕ =>
    (1 / (F.length : ℂ)) * ((List.range F.length).map (fun k : ℕ =>
      F.getD k 0 *
        Complex.exp (2 * (Real.pi : ℂ) * Complex.I * (k : ℂ) * (m : ℂ) / F.length))).sum)

/-- Embedding of `Fourier(iv, function)` (lines 116-133): the sorted dual grid
`rv[j] = 2π·fftfreqNum(σ j)/(n·div)` and the sorted, spacing-scaled,
phase-corrected transform `div·fft(f)[σ j]·exp(-i·rv[j]·iv[0])`, where
`σ = argsortFFT n div` is `np.argsort` of the `fftfreq` array (its direction
depends on the sign of `div = iv[1] - iv[0]`). -/
def Fourier (iv : List ℝ) (f : List ℂ) : List ℝ × List ℂ :=
  let n := iv.length
  let d := iv.getD 1 0 - iv.getD 0 0
  let rv : List ℝ := (List.range n).map (fun j =>
    2 * Real.pi * ((fftfreqNum n (argsortFFT n d j) : ℤ) : ℝ) / (n * d))
  let DFT : List ℂ := (List.range n).map (fun j =>
    (d : ℂ) * (fft f).getD (argsortFFT n d j) 0 *
      Complex.exp (-Complex.I * ((rv.getD j 0 : ℝ) : ℂ) * ((iv.getD 0 0 : ℝ) : ℂ)))
  (rv, DFT)

/-- Embedding of `InverseFourier(iv, function)` (lines 136-148): as `Fourier`
but with `np.fft.ifft` and the phase `exp(+1j*rv*iv[0])`. -/
def InverseFourier (iv : List ℝ) (f : List ℂ) : List ℝ × List ℂ :=
  let n := iv.length
  let d := iv.getD 1 0 - iv.getD 0 0
  let rv : List ℝ := (List.range n).map (fun j =>
    2 * Real.pi * ((fftfreqNum n (argsortFFT n d j) : ℤ) : ℝ) / (n * d))
  let IDFT : List ℂ := (List.range n).map (fun j =>
    (d : ℂ) * (ifft f).getD (argsortFFT n d j) 0 *
      Complex.exp (Complex.I * ((rv.getD j 0 : ℝ) : ℂ) * ((iv.getD 0 0 : ℝ) : ℂ)))
  (rv, IDFT)

/-- The sorted numerator at sorted index `j` is `j - ⌊n/2⌋`. -/
theorem fftfreqNum_sortPerm (n j : ℕ) (hn : 0 < n) (hj : j < n) :
    fftfreqNum n (sortPerm n j) = (j : ℤ) - (n / 2 : ℕ) := by
  rcases lt_or_ge j (n / 2) with hc | hc
  · have hm : (j + (n + 1) / 2) % n = j + (n + 1) / 2 := Nat.mod_eq_of_lt (by omega)
    simp only [fftfreqNum, sortPerm, hm]
    split_ifs with h
    · omega
    · omega
  · have hm : (j + (n + 1) / 2) % n = j + (n + 1) / 2 - n := by
      rw [Nat.mod_eq_sub_mod (by omega)]
      exact Nat.mod_eq_of_lt (by omega)
    simp only [fftfreqNum, sortPerm, hm]
    split_ifs with h
    · omega
    · omega

/-- Justification that `sortPerm` is `np.argsort` of the `fftfreq` array:
it maps `range n` into `range n`, strictly increases the frequency
numerators (hence the frequencies, for positive spacing), and is injective —
i.e. it is the unique ascending reordering of the `n` distinct frequencies. -/
theorem sortPerm_is_argsort (n : ℕ) (hn : 0 < n) :
    (∀ j, j < n → sortPerm n j < n) ∧
    (∀ j k, j < n → k < n → j < k →
      fftfreqNum n (sortPerm n j) < fftfreqNum n (sortPerm n k)) ∧
    (∀ j k, j < n → k < n → sortPerm n j = sortPerm n k → j = k) := by
  refine ⟨fun j hj => Nat.mod_lt _ hn, ?_, ?_⟩
  · intro j k hj hk hjk
    rw [fftfreqNum_sortPerm n j hn hj, fftfreqNum_sortPerm n k hn hk]
    omega
  · intro j k hj hk heq
    have h1 := fftfreqNum_sortPerm n j hn hj
    have h2 := fftfreqNum_sortPerm n k hn hk
    rw [heq] at h1
    omega

/-- For positive spacing, `argsortFFT` is the ascending-numerator rotation. -/
theorem argsortFFT_pos (n : ℕ) (d : ℝ) (j : ℕ) (hd : 0 < d) :
    argsortFFT n d j = sortPerm n j := by
  rw [argsortFFT, if_neg (by linarith)]

/-- For negative spacing the sorted numerator at sorted index `j` is
`⌈n/2⌉ - 1 - j`: the numerators run downward. -/
theorem fftfreqNum_argsortFFT_neg (n j : ℕ) (d : ℝ) (hd : d < 0) (hn : 0 < n)
    (hj : j < n) :
    fftfreqNum n (argsortFFT n d j) = (((n + 1) / 2 : ℕ) : ℤ) - 1 - j := by
  rw [argsortFFT, if_pos hd]
  rcases lt_or_ge j ((n + 1) / 2) with hc | hc
  · have hm : ((n + 1) / 2 - 1 + n - j) % n = (n + 1) / 2 - 1 - j := by
      rw [Nat.mod_eq_sub_mod (by omega)]
      rw [show (n + 1) / 2 - 1 + n - j - n = (n + 1) / 2 - 1 - j from by omega]
      exact Nat.mod_eq_of_lt (by omega)
    simp only [fftfreqNum, hm]
    split_ifs with h
    · omega
    · omega
  · have hm : ((n + 1) / 2 - 1 + n - j) % n = (n + 1) / 2 - 1 + n - j :=
      Nat.mod_eq_of_lt (by omega)
    simp only [fftfreqNum, hm]
    split_ifs with h
    · omega
    · omega

/-- Justification that `argsortFFT` is `np.argsort` of the scaled `fftfreq`
array for every nonzero spacing: it maps `range n` into `range n`, strictly
increases the actual frequency values `2π·fftfreqNum(σ j)/(n·d)` (for `d < 0`
the descending numerators divided by the negative `n·d` ascend), and is
injective — i.e. it is the unique ascending reordering of the `n` distinct
frequencies. -/
theorem argsortFFT_is_argsort (n : ℕ) (d : ℝ) (hn : 0 < n) (hd : d ≠ 0) :
    (∀ j, j < n → argsortFFT n d j < n) ∧
    (∀ j k, j < n → k < n → j < k →
      2 * Real.pi * ((fftfreqNum n (argsortFFT n d j) : ℤ) : ℝ) / (n * d) <
        2 * Real.pi * ((fftfreqNum n (argsortFFT n d k) : ℤ) : ℝ) / (n * d)) ∧
    (∀ j k, j < n → k < n → argsortFFT n d j = argsortFFT n d k → j = k) := by
  have hnR : (0 : ℝ) < n := by exact_mod_cast hn
  refine ⟨?_, ?_, ?_⟩
  · intro j hj
    rw [argsortFFT]
    split_ifs
    · exact Nat.mod_lt _ hn
    · exact Nat.mod_lt _ hn
  · intro j k hj hk hjk
    rcases lt_or_gt_of_ne hd with hneg | hpos
    · rw [fftfreqNum_argsortFFT_neg n j d hneg hn hj,
        fftfreqNum_argsortFFT_neg n k d hneg hn hk]
      have hnd : (n : ℝ) * d < 0 := mul_neg_of_pos_of_neg hnR hneg
      rw [div_lt_div_right_of_neg hnd]
      have hlt : ((((n + 1) / 2 : ℕ) : ℤ) - 1 - k : ℤ) <
          (((n + 1) / 2 : ℕ) : ℤ) - 1 - j := by omega
      have hltR : (((((n + 1) / 2 : ℕ) : ℤ) - 1 - (k : ℤ) : ℤ) : ℝ) <
          ((((((n + 1) / 2 : ℕ) : ℤ) - 1 - (j : ℤ)) : ℤ) : ℝ) := by exact_mod_cast hlt
      have h2pi : (0 : ℝ) < 2 * Real.pi := by linarith [Real.pi_pos]
      calc 2 * Real.pi * (((((n + 1) / 2 : ℕ) : ℤ) - 1 - (k : ℤ) : ℤ) : ℝ)
          < 2 * Real.pi * ((((((n + 1) / 2 : ℕ) : ℤ) - 1 - (j : ℤ)) : ℤ) : ℝ) :=
            mul_lt_mul_of_pos_left hltR h2pi
        _ = _ := rfl
    · rw [argsortFFT_pos n d j hpos, argsortFFT_pos n d k hpos,
        fftfreqNum_sortPerm n j hn hj, fftfreqNum_sortPerm n k hn hk]
      have hnd : (0 : ℝ) < (n : ℝ) * d := mul_pos hnR hpos
      rw [div_lt_div_iff_of_pos_right hnd]
      have hlt : ((j : ℤ) - ((n / 2 : ℕ) : ℤ) : ℤ) < (k : ℤ) - ((n / 2 : ℕ) : ℤ) := by
        omega
      have hltR : ((((j : ℤ) - ((n / 2 : ℕ) : ℤ)) : ℤ) : ℝ) <
          ((((k : ℤ) - ((n / 2 : ℕ) : ℤ)) : ℤ) : ℝ) := by exact_mod_cast hlt
      exact mul_lt_mul_of_pos_left hltR (by linarith [Real.pi_pos])
  · intro j k hj hk heq
    rcases lt_or_gt_of_ne hd with hneg | hpos
    · have h1 := fftfreqNum_argsortFFT_neg n j d hneg hn hj
      have h2 := fftfreqNum_argsortFFT_neg n k d hneg hn hk
      rw [heq] at h1
      omega
    · rw [argsortFFT_pos n d j hpos, argsortFFT_pos n d k hpos] at heq
      exact (sortPerm_is_argsort n hn).2.2 j k hj hk heq

theorem sum_map_range_eq {M : Type} [AddCommMonoid M] (g : ℕ → M) (n : ℕ) :
    ((List.range n).map g).sum = ∑ j ∈ Finset.range n, g j := by
  induction n with
  | zero => simp
  | succ k ih =>
    rw [List.range_succ, List.map_append, List.sum_append, Finset.sum_range_succ, ih]
    simp

theorem two_pi_I_ne_zero : 2 * (Real.pi : ℂ) * Complex.I ≠ 0 := by
  simp [Complex.I_ne_zero, Complex.ofReal_ne_zero, Real.pi_ne_zero]

/-- Periodicity of `exp(2πi·a/n)` in `a` modulo `n`. -/
theorem exp_two_pi_frac_congr (n : ℕ) (hn : 0 < n) (a b : ℤ) (h : (n : ℤ) ∣ (a - b)) :
    Complex.exp (2 * (Real.pi : ℂ) * Complex.I * a / n) =
      Complex.exp (2 * (Real.pi : ℂ) * Complex.I * b / n) := by
  have hn' : (n : ℂ) ≠ 0 := Nat.cast_ne_zero.mpr hn.ne'
  obtain ⟨t, ht⟩ := h
  have hab : (a : ℂ) = b + n * t := by
    have : (a : ℤ) = b + n * t := by omega
    exact_mod_cast congrArg (fun z : ℤ => (z : ℂ)) this
  rw [show 2 * (Real.pi : ℂ) * Complex.I * a / n =
      2 * (Real.pi : ℂ) * Complex.I * b / n + t * (2 * Real.pi * Complex.I) from by
    rw [hab]; field_simp; ring]
  rw [Complex.exp_add, Complex.exp_int_mul_two_pi_mul_I, mul_one]

/-- The discrete delta: `Σ_{j<n} exp(2πi·c·j/n)` is `n` when `n ∣ c` and `0`
otherwise. -/
theorem sum_exp_delta (n : ℕ) (hn : 0 < n) (c : ℤ) :
    ∑ j ∈ Finset.range n, Complex.exp (2 * (Real.pi : ℂ) * Complex.I * c * j / n) =
      if (n : ℤ) ∣ c then (n : ℂ) else 0 := by
  have hn' : (n : ℂ) ≠ 0 := Nat.cast_ne_zero.mpr hn.ne'
  have hzpow : ∀ j : ℕ, Complex.exp (2 * (Real.pi : ℂ) * Complex.I * c * j / n) =
      Complex.exp (2 * (Real.pi : ℂ) * Complex.I * c / n) ^ j := by
    intro j
    rw [← Complex.exp_nat_mul]
    congr 1
    field_simp
    ring
  have hzn : Complex.exp (2 * (Real.pi : ℂ) * Complex.I * c / n) ^ n = 1 := by
    rw [← Complex.exp_nat_mul]
    rw [show (n : ℂ) * (2 * (Real.pi : ℂ) * Complex.I * c / n) =
        c * (2 * Real.pi * Complex.I) from by field_simp; ring]
    exact Complex.exp_int_mul_two_pi_mul_I c
  by_cases hdvd : (n : ℤ) ∣ c
  · obtain ⟨t, rfl⟩ := hdvd
    have hz1 : Complex.exp (2 * (Real.pi : ℂ) * Complex.I * ((n : ℤ) * t : ℤ) / n) = 1 := by
      rw [show 2 * (Real.pi : ℂ) * Complex.I * (((n : ℤ) * t : ℤ) : ℂ) / n =
          t * (2 * Real.pi * Complex.I) from by push_cast; field_simp; ring]
      exact Complex.exp_int_mul_two_pi_mul_I t
    rw [if_pos ⟨t, rfl⟩]
    calc ∑ j ∈ Finset.range n,
          Complex.exp (2 * (Real.pi : ℂ) * Complex.I * ((n : ℤ) * t : ℤ) * j / n)
        = ∑ _j ∈ Finset.range n, (1 : ℂ) := by
          refine Finset.sum_congr rfl (fun j _ => ?_)
          rw [hzpow j, hz1, one_pow]
      _ = (n : ℂ) := by simp
  · have hz1 : Complex.exp (2 * (Real.pi : ℂ) * Complex.I * c / n) ≠ 1 := by
      intro h1
      obtain ⟨k, hk⟩ := Complex.exp_eq_one_iff.mp h1
      apply hdvd
      have hc : (c : ℂ) = k * n := by
        have h2 : 2 * (Real.pi : ℂ) * Complex.I * c = k * (2 * Real.pi * Complex.I) * n := by
          field_simp at hk
          linear_combination hk
        have h3 : (2 * (Real.pi : ℂ) * Complex.I) * c =
            (2 * (Real.pi : ℂ) * Complex.I) * (k * n) := by linear_combination h2
        exact mul_left_cancel₀ two_pi_I_ne_zero h3
      have hcz : (c : ℤ) = k * n := by exact_mod_cast hc
      exact ⟨k, by rw [hcz]; ring⟩
    rw [if_neg hdvd]
    calc ∑ j ∈ Finset.range n,
          Complex.exp (2 * (Real.pi : ℂ) * Complex.I * c * j / n)
        = ∑ j ∈ Finset.range n, Complex.exp (2 * (Real.pi : ℂ) * Complex.I * c / n) ^ j :=
          Finset.sum_congr rfl (fun j _ => hzpow j)
      _ = (Complex.exp (2 * (Real.pi : ℂ) * Complex.I * c / n) ^ n - 1) /
            (Complex.exp (2 * (Real.pi : ℂ) * Complex.I * c / n) - 1) := geom_sum_eq hz1 n
      _ = 0 := by rw [hzn]; simp



theorem Fourier_fst_length (iv : List ℝ) (f : List ℂ) :
    (Fourier iv f).1.length = iv.length := by
  simp [Fourier]

theorem InverseFourier_snd_length (iv : List ℝ) (f : List ℂ) :
    (InverseFourier iv f).2.length = iv.length := by
  simp [InverseFourier]

theorem Fourier_fst_getD (iv : List ℝ) (f : List ℂ) (j : ℕ) (hj : j < iv.length) :
    (Fourier iv f).1.getD j 0 =
      2 * Real.pi * ((fftfreqNum iv.length
          (argsortFFT iv.length (iv.getD 1 0 - iv.getD 0 0) j) : ℤ) : ℝ) /
        (iv.length * (iv.getD 1 0 - iv.getD 0 0)) :=
  getD_map_range _ _ _ _ hj

theorem Fourier_snd_getD (iv : List ℝ) (f : List ℂ) (j : ℕ) (hj : j < iv.length) :
    (Fourier iv f).2.getD j 0 =
      ((iv.getD 1 0 - iv.getD 0 0 : ℝ) : ℂ) *
        (fft f).getD (argsortFFT iv.length (iv.getD 1 0 - iv.getD 0 0) j) 0 *
        Complex.exp (-Complex.I * (((Fourier iv f).1.getD j 0 : ℝ) : ℂ) *
          ((iv.getD 0 0 : ℝ) : ℂ)) :=
  getD_map_range _ _ _ _ hj

theorem InverseFourier_fst_getD (iv : List ℝ) (f : List ℂ) (j : ℕ) (hj : j < iv.length) :
    (InverseFourier iv f).1.getD j 0 =
      2 * Real.pi * ((fftfreqNum iv.length
          (argsortFFT iv.length (iv.getD 1 0 - iv.getD 0 0) j) : ℤ) : ℝ) /
        (iv.length * (iv.getD 1 0 - iv.getD 0 0)) :=
  getD_map_range _ _ _ _ hj

theorem InverseFourier_snd_getD (iv : List ℝ) (f : List ℂ) (j : ℕ) (hj : j < iv.length) :
    (InverseFourier iv f).2.getD j 0 =
      ((iv.getD 1 0 - iv.getD 0 0 : ℝ) : ℂ) *
        (ifft f).getD (argsortFFT iv.length (iv.getD 1 0 - iv.getD 0 0) j) 0 *
        Complex.exp (Complex.I * (((InverseFourier iv f).1.getD j 0 : ℝ) : ℂ) *
          ((iv.getD 0 0 : ℝ) : ℂ)) :=
  getD_map_range _ _ _ _ hj

theorem fft_getD (f : List ℂ) (k : ℕ) (hk : k < f.length) :
    (fft f).getD k 0 =
      ∑ m ∈ Finset.range f.length, f.getD m 0 *
        Complex.exp (-(2 * (Real.pi : ℂ) * Complex.I * k * m) / f.length) := by
  simp only [fft]
  rw [getD_map_range _ f.length k 0 hk]
  exact sum_map_range_eq _ _

theorem ifft_getD (F : List ℂ) (k : ℕ) (hk : k < F.length) :
    (ifft F).getD k 0 =
      (1 / (F.length : ℂ)) * ∑ m ∈ Finset.range F.length, F.getD m 0 *
        Complex.exp (2 * (Real.pi : ℂ) * Complex.I * m * k / F.length) := by
  simp only [ifft]
  rw [getD_map_range _ F.length k 0 hk]
  rw [sum_map_range_eq]

theorem sortPerm_lt (n j : ℕ) (hn : 0 < n) : sortPerm n j < n := Nat.mod_lt _ hn

theorem sortPerm_mod (n j : ℕ) (hn : 0 < n) (hj : j < n) :
    (n : ℤ) ∣ ((sortPerm n j : ℤ) - ((j : ℤ) - (n / 2 : ℕ))) := by
  have h := fftfreqNum_sortPerm n j hn hj
  simp only [fftfreqNum] at h
  split_ifs at h
  · exact ⟨0, by omega⟩
  · exact ⟨1, by omega⟩



section RoundTrip

variable (n : ℕ) (d : ℝ) (f : List ℂ)

theorem Fourier_snd_length (iv : List ℝ) (g : List ℂ) :
    (Fourier iv g).2.length = iv.length := by
  simp [Fourier]

theorem fourier_uniform_basics (hn : 2 ≤ n) :
    ((List.range n).map (fun m : ℕ => (m : ℝ) * d)).length = n ∧
    ((List.range n).map (fun m : ℕ => (m : ℝ) * d)).getD 0 0 = 0 ∧
    ((List.range n).map (fun m : ℕ => (m : ℝ) * d)).getD 1 0 = d := by
  refine ⟨by simp, ?_, ?_⟩
  · rw [getD_map_range _ n 0 0 (by omega)]
    simp
  · rw [getD_map_range _ n 1 0 (by omega)]
    simp

theorem fourier_uniform_rvD (hn : 2 ≤ n) (hd : 0 < d) (i : ℕ) (hi : i < n) :
    (Fourier ((List.range n).map (fun m : ℕ => (m : ℝ) * d)) f).1.getD i 0 =
      2 * Real.pi * ((((i : ℤ) - ((n / 2 : ℕ) : ℤ)) : ℤ) : ℝ) / (n * d) := by
  obtain ⟨hlen, h0, h1⟩ := fourier_uniform_basics n d hn
  rw [Fourier_fst_getD _ f i (by rw [hlen]; exact hi)]
  rw [hlen, h0, h1, sub_zero, argsortFFT_pos n d i hd,
    fftfreqNum_sortPerm n i (by omega) hi]

theorem fourier_uniform_FD (hn : 2 ≤ n) (hd : 0 < d) (i : ℕ) (hi : i < n) :
    (Fourier ((List.range n).map (fun m : ℕ => (m : ℝ) * d)) f).2.getD i 0 =
      (d : ℂ) * (fft f).getD (sortPerm n i) 0 := by
  obtain ⟨hlen, h0, h1⟩ := fourier_uniform_basics n d hn
  rw [Fourier_snd_getD _ f i (by rw [hlen]; exact hi)]
  rw [hlen, h0, h1, sub_zero, argsortFFT_pos n d i hd]
  simp

theorem fourier_uniform_spacing (hn : 2 ≤ n) (hd : 0 < d) :
    (Fourier ((List.range n).map (fun m : ℕ => (m : ℝ) * d)) f).1.getD 1 0 -
      (Fourier ((List.range n).map (fun m : ℕ => (m : ℝ) * d)) f).1.getD 0 0 =
      2 * Real.pi / ((n : ℝ) * d) := by
  have hn0 : 0 < n := by omega
  rw [fourier_uniform_rvD n d f hn hd 1 (by omega), fourier_uniform_rvD n d f hn hd 0 hn0]
  rw [div_sub_div_same]
  congr 1
  simp only [Nat.cast_one, Nat.cast_zero, Int.cast_sub, Int.cast_one, Int.cast_zero,
    Int.cast_natCast]
  ring

theorem ifft_fourier_uniform (hn : 2 ≤ n) (hd : 0 < d) (hf : f.length = n)
    (k : ℕ) (hk : k < n) :
    (ifft (Fourier ((List.range n).map (fun m : ℕ => (m : ℝ) * d)) f).2).getD k 0 =
      (d : ℂ) * f.getD k 0 *
        Complex.exp (2 * (Real.pi : ℂ) * Complex.I * ((n / 2 : ℕ) : ℂ) * (k : ℂ) / n) := by
  have hn0 : 0 < n := by omega
  have hnC : (n : ℂ) ≠ 0 := Nat.cast_ne_zero.mpr (by omega)
  have hF2len : (Fourier ((List.range n).map (fun m : ℕ => (m : ℝ) * d)) f).2.length = n := by
    rw [Fourier_snd_length]
    exact (fourier_uniform_basics n d hn).1
  rw [ifft_getD _ k (by rw [hF2len]; exact hk), hF2len]
  have hfftD : ∀ k', k' < n → (fft f).getD k' 0 =
      ∑ m ∈ Finset.range n, f.getD m 0 *
        Complex.exp (-(2 * (Real.pi : ℂ) * Complex.I * (k' : ℂ) * (m : ℂ)) / n) := by
    intro k' hk'
    rw [fft_getD f k' (by rw [hf]; exact hk'), hf]
  have step1 : ∀ j' ∈ Finset.range n,
      (Fourier ((List.range n).map (fun m : ℕ => (m : ℝ) * d)) f).2.getD j' 0 *
        Complex.exp (2 * (Real.pi : ℂ) * Complex.I * (j' : ℂ) * (k : ℂ) / n) =
      ∑ m ∈ Finset.range n, (d : ℂ) * f.getD m 0 *
        Complex.exp (2 * (Real.pi : ℂ) * Complex.I * ((n / 2 : ℕ) : ℂ) * (m : ℂ) / n) *
        Complex.exp (2 * (Real.pi : ℂ) * Complex.I *
          ((((k : ℤ) - (m : ℤ)) : ℤ) : ℂ) * (j' : ℂ) / n) := by
    intro j' hj'
    rw [Finset.mem_range] at hj'
    rw [fourier_uniform_FD n d f hn hd j' hj', hfftD (sortPerm n j') (sortPerm_lt n j' hn0)]
    rw [Finset.mul_sum, Finset.sum_mul]
    refine Finset.sum_congr rfl (fun m hm => ?_)
    rw [Finset.mem_range] at hm
    have hcong : Complex.exp (-(2 * (Real.pi : ℂ) * Complex.I *
        ((sortPerm n j' : ℕ) : ℂ) * (m : ℂ)) / n) =
        Complex.exp (2 * (Real.pi : ℂ) * Complex.I *
          (((-(((j' : ℤ) - ((n / 2 : ℕ) : ℤ)) * (m : ℤ))) : ℤ) : ℂ) / n) := by
      rw [show -(2 * (Real.pi : ℂ) * Complex.I * ((sortPerm n j' : ℕ) : ℂ) * (m : ℂ)) / n =
          2 * (Real.pi : ℂ) * Complex.I *
            (((-(((sortPerm n j' : ℕ) : ℤ) * (m : ℤ))) : ℤ) : ℂ) / n from by
        push_cast
        ring]
      apply exp_two_pi_frac_congr n hn0
      obtain ⟨t, ht⟩ := sortPerm_mod n j' hn0 hj'
      exact ⟨-(m : ℤ) * t, by linear_combination (-(m : ℤ)) * ht⟩
    rw [hcong]
    have hexp : Complex.exp (2 * (Real.pi : ℂ) * Complex.I *
          (((-(((j' : ℤ) - ((n / 2 : ℕ) : ℤ)) * (m : ℤ))) : ℤ) : ℂ) / n) *
        Complex.exp (2 * (Real.pi : ℂ) * Complex.I * (j' : ℂ) * (k : ℂ) / n) =
        Complex.exp (2 * (Real.pi : ℂ) * Complex.I * ((n / 2 : ℕ) : ℂ) * (m : ℂ) / n) *
        Complex.exp (2 * (Real.pi : ℂ) * Complex.I *
          ((((k : ℤ) - (m : ℤ)) : ℤ) : ℂ) * (j' : ℂ) / n) := by
      rw [← Complex.exp_add, ← Complex.exp_add]
      congr 1
      rw [div_add_div_same, div_add_div_same]
      congr 1
      simp only [Int.cast_neg, Int.cast_mul, Int.cast_sub, Int.cast_natCast]
      ring
    calc (d : ℂ) * (f.getD m 0 * Complex.exp (2 * (Real.pi : ℂ) * Complex.I *
            (((-(((j' : ℤ) - ((n / 2 : ℕ) : ℤ)) * (m : ℤ))) : ℤ) : ℂ) / n)) *
          Complex.exp (2 * (Real.pi : ℂ) * Complex.I * (j' : ℂ) * (k : ℂ) / n)
        = (d : ℂ) * f.getD m 0 *
            (Complex.exp (2 * (Real.pi : ℂ) * Complex.I *
              (((-(((j' : ℤ) - ((n / 2 : ℕ) : ℤ)) * (m : ℤ))) : ℤ) : ℂ) / n) *
            Complex.exp (2 * (Real.pi : ℂ) * Complex.I * (j' : ℂ) * (k : ℂ) / n)) := by
          ring
      _ = (d : ℂ) * f.getD m 0 *
            (Complex.exp (2 * (Real.pi : ℂ) * Complex.I * ((n / 2 : ℕ) : ℂ) * (m : ℂ) / n) *
            Complex.exp (2 * (Real.pi : ℂ) * Complex.I *
              ((((k : ℤ) - (m : ℤ)) : ℤ) : ℂ) * (j' : ℂ) / n)) := by
          rw [hexp]
      _ = (d : ℂ) * f.getD m 0 *
            Complex.exp (2 * (Real.pi : ℂ) * Complex.I * ((n / 2 : ℕ) : ℂ) * (m : ℂ) / n) *
            Complex.exp (2 * (Real.pi : ℂ) * Complex.I *
              ((((k : ℤ) - (m : ℤ)) : ℤ) : ℂ) * (j' : ℂ) / n) := by
          ring
  rw [Finset.sum_congr rfl step1, Finset.sum_comm]
  have step3 : ∀ m ∈ Finset.range n,
      (∑ j' ∈ Finset.range n, (d : ℂ) * f.getD m 0 *
        Complex.exp (2 * (Real.pi : ℂ) * Complex.I * ((n / 2 : ℕ) : ℂ) * (m : ℂ) / n) *
        Complex.exp (2 * (Real.pi : ℂ) * Complex.I *
          ((((k : ℤ) - (m : ℤ)) : ℤ) : ℂ) * (j' : ℂ) / n)) =
      if m = k then (d : ℂ) * f.getD m 0 *
        Complex.exp (2 * (Real.pi : ℂ) * Complex.I * ((n / 2 : ℕ) : ℂ) * (m : ℂ) / n) *
        (n : ℂ) else 0 := by
    intro m hm
    rw [Finset.mem_range] at hm
    rw [← Finset.mul_sum, sum_exp_delta n hn0 ((k : ℤ) - (m : ℤ))]
    by_cases hmk : m = k
    · subst hmk
      rw [if_pos ⟨0, by ring⟩, if_pos rfl]
    · have hndvd : ¬ (n : ℤ) ∣ ((k : ℤ) - (m : ℤ)) := by
        intro hdvd
        have := Int.eq_zero_of_abs_lt_dvd hdvd (by
          rw [abs_sub_lt_iff]
          omega)
        omega
      rw [if_neg hndvd, if_neg hmk, mul_zero]
  rw [Finset.sum_congr rfl step3, Finset.sum_ite_eq' (Finset.range n) k]
  rw [if_pos (Finset.mem_range.mpr hk)]
  field_simp

end RoundTrip


/-- C1 amended: for a uniform grid starting at the origin (`iv[m] = m·d`,
`n ≥ 2` samples, positive spacing `d > 0`, the orientation every grid built by
`IV` has) and any complex samples `f` of matching length, the
round trip `InverseFourier (Fourier iv f)` does **not** reproduce `f`: the
value at index `j` of the returned array is `(2π/n) · f[(j + ⌈n/2⌉) % n]` —
`f` scaled by `2π/n` and cyclically reindexed onto the dual-dual grid.  The
phase corrections do cancel, but the missing `1/(2π)` of the inverse
transform, the `div·div' = 2π/n` spacing product, and the `argsort`
reordering leave a scaled, shifted copy of `f`. -/
theorem Fourier_roundtrip_scaled (n : ℕ) (d : ℝ) (f : List ℂ)
    (hn : 2 ≤ n) (hd : 0 < d) (hf : f.length = n) (j : ℕ) (hj : j < n) :
    (InverseFourier (Fourier ((List.range n).map (fun m : ℕ => (m : ℝ) * d)) f).1
        (Fourier ((List.range n).map (fun m : ℕ => (m : ℝ) * d)) f).2).2.getD j 0 =
      ((2 * Real.pi / n : ℝ) : ℂ) * f.getD (sortPerm n j) 0 := by
  have hn0 : 0 < n := by omega
  have hnR : (n : ℝ) ≠ 0 := Nat.cast_ne_zero.mpr (by omega)
  have hnC : (n : ℂ) ≠ 0 := Nat.cast_ne_zero.mpr (by omega)
  have hdC : (d : ℂ) ≠ 0 := Complex.ofReal_ne_zero.mpr (ne_of_gt hd)
  obtain ⟨hlen, h0, h1⟩ := fourier_uniform_basics n d hn
  have hrvlen : (Fourier ((List.range n).map (fun m : ℕ => (m : ℝ) * d)) f).1.length = n := by
    rw [Fourier_fst_length, hlen]
  have hd' := fourier_uniform_spacing n d f hn hd
  have hdnpos : 0 < 2 * Real.pi / ((n : ℝ) * d) :=
    div_pos (by linarith [Real.pi_pos]) (mul_pos (by exact_mod_cast hn0) hd)
  have harith : ∀ c : ℝ, 2 * Real.pi * c / ((n : ℝ) * (2 * Real.pi / ((n : ℝ) * d))) = c * d := by
    intro c
    rw [show (n : ℝ) * (2 * Real.pi / ((n : ℝ) * d)) = 2 * Real.pi / d from by
      field_simp
      ring]
    rw [div_div_eq_mul_div]
    field_simp
    ring
  have hrv2D : (InverseFourier
      (Fourier ((List.range n).map (fun m : ℕ => (m : ℝ) * d)) f).1
      (Fourier ((List.range n).map (fun m : ℕ => (m : ℝ) * d)) f).2).1.getD j 0 =
      ((((j : ℤ) - ((n / 2 : ℕ) : ℤ)) : ℤ) : ℝ) * d := by
    rw [InverseFourier_fst_getD _ _ j (by rw [hrvlen]; exact hj)]
    rw [hrvlen, hd', argsortFFT_pos n (2 * Real.pi / ((n : ℝ) * d)) j hdnpos,
      fftfreqNum_sortPerm n j hn0 hj, harith]
  rw [InverseFourier_snd_getD _ _ j (by rw [hrvlen]; exact hj)]
  rw [hrvlen, hd', argsortFFT_pos n (2 * Real.pi / ((n : ℝ) * d)) j hdnpos, hrv2D,
    ifft_fourier_uniform n d f hn hd hf (sortPerm n j) (sortPerm_lt n j hn0),
    fourier_uniform_rvD n d f hn hd 0 hn0]
  obtain ⟨t, ht⟩ := sortPerm_mod n j hn0 hj
  have hσC : ((sortPerm n j : ℕ) : ℂ) = (j : ℂ) - ((n / 2 : ℕ) : ℂ) + (n : ℂ) * (t : ℂ) := by
    have h1 : ((sortPerm n j : ℕ) : ℤ) = (j : ℤ) - ((n / 2 : ℕ) : ℤ) + (n : ℤ) * t := by
      linarith
    have h2 := congrArg (fun z : ℤ => (z : ℂ)) h1
    simp only [Int.cast_add, Int.cast_sub, Int.cast_mul, Int.cast_natCast] at h2
    exact h2
  have hphase : Complex.exp (2 * (Real.pi : ℂ) * Complex.I * ((n / 2 : ℕ) : ℂ) *
        ((sortPerm n j : ℕ) : ℂ) / (n : ℂ)) *
      Complex.exp (Complex.I *
        ((((((j : ℤ) - ((n / 2 : ℕ) : ℤ)) : ℤ) : ℝ) * d : ℝ) : ℂ) *
        ((2 * Real.pi * (((((0 : ℕ) : ℤ) - ((n / 2 : ℕ) : ℤ)) : ℤ) : ℝ) /
          ((n : ℝ) * d) : ℝ) : ℂ)) = 1 := by
    rw [← Complex.exp_add]
    rw [show 2 * (Real.pi : ℂ) * Complex.I * ((n / 2 : ℕ) : ℂ) *
          ((sortPerm n j : ℕ) : ℂ) / (n : ℂ) +
        Complex.I * ((((((j : ℤ) - ((n / 2 : ℕ) : ℤ)) : ℤ) : ℝ) * d : ℝ) : ℂ) *
        ((2 * Real.pi * (((((0 : ℕ) : ℤ) - ((n / 2 : ℕ) : ℤ)) : ℤ) : ℝ) /
          ((n : ℝ) * d) : ℝ) : ℂ) =
        ((((n / 2 : ℕ) : ℤ) * t : ℤ) : ℂ) * (2 * (Real.pi : ℂ) * Complex.I) from ?_]
    · exact Complex.exp_int_mul_two_pi_mul_I _
    · simp only [Complex.ofReal_mul, Complex.ofReal_div, Complex.ofReal_intCast,
        Complex.ofReal_ofNat, Complex.ofReal_natCast, Int.cast_sub, Int.cast_mul,
        Int.cast_natCast, Nat.cast_zero]
      rw [hσC]
      field_simp
      ring
  calc ((2 * Real.pi / ((n : ℝ) * d) : ℝ) : ℂ) *
        ((d : ℂ) * f.getD (sortPerm n j) 0 *
          Complex.exp (2 * (Real.pi : ℂ) * Complex.I * ((n / 2 : ℕ) : ℂ) *
            ((sortPerm n j : ℕ) : ℂ) / (n : ℂ))) *
        Complex.exp (Complex.I *
          ((((((j : ℤ) - ((n / 2 : ℕ) : ℤ)) : ℤ) : ℝ) * d : ℝ) : ℂ) *
          ((2 * Real.pi * (((((0 : ℕ) : ℤ) - ((n / 2 : ℕ) : ℤ)) : ℤ) : ℝ) /
            ((n : ℝ) * d) : ℝ) : ℂ))
      = ((2 * Real.pi / ((n : ℝ) * d) : ℝ) : ℂ) * (d : ℂ) * f.getD (sortPerm n j) 0 *
        (Complex.exp (2 * (Real.pi : ℂ) * Complex.I * ((n / 2 : ℕ) : ℂ) *
            ((sortPerm n j : ℕ) : ℂ) / (n : ℂ)) *
          Complex.exp (Complex.I *
            ((((((j : ℤ) - ((n / 2 : ℕ) : ℤ)) : ℤ) : ℝ) * d : ℝ) : ℂ) *
            ((2 * Real.pi * (((((0 : ℕ) : ℤ) - ((n / 2 : ℕ) : ℤ)) : ℤ) : ℝ) /
              ((n : ℝ) * d) : ℝ) : ℂ))) := by
        ring
    _ = ((2 * Real.pi / ((n : ℝ) * d) : ℝ) : ℂ) * (d : ℂ) * f.getD (sortPerm n j) 0 * 1 := by
        rw [hphase]
    _ = ((2 * Real.pi / n : ℝ) : ℂ) * f.getD (sortPerm n j) 0 := by
        rw [mul_one]
        rw [show ((2 * Real.pi / ((n : ℝ) * d) : ℝ) : ℂ) * (d : ℂ) =
            ((2 * Real.pi / n : ℝ) : ℂ) from by
          simp only [Complex.ofReal_div, Complex.ofReal_mul, Complex.ofReal_ofNat,
            Complex.ofReal_natCast]
          field_simp
          ring]


/-- C1 counterexample: on the uniform grid `iv = [0, 1]` with `f = [1, 0]`,
the round trip returns `0` at index 0 where `f` has `1`, an error of `1`
relative to `|f[0]| = 1` — far beyond the claimed 1e-9 relative tolerance. -/
theorem Fourier_roundtrip_fails :
    (InverseFourier (Fourier [(0 : ℝ), 1] [(1 : ℂ), 0]).1
        (Fourier [(0 : ℝ), 1] [(1 : ℂ), 0]).2).2.getD 0 0 = 0 ∧
    (1e-9 : ℝ) * Complex.abs (([(1 : ℂ), 0]).getD 0 0) <
      Complex.abs ((InverseFourier (Fourier [(0 : ℝ), 1] [(1 : ℂ), 0]).1
        (Fourier [(0 : ℝ), 1] [(1 : ℂ), 0]).2).2.getD 0 0 - ([(1 : ℂ), 0]).getD 0 0) := by
  have hlist : ([(0 : ℝ), 1]) = (List.range 2).map (fun m : ℕ => (m : ℝ) * 1) := by
    simp [List.range_succ]
  have hrvlen : (Fourier ((List.range 2).map (fun m : ℕ => (m : ℝ) * 1)) [(1 : ℂ), 0]).1.length
      = 2 := by
    rw [Fourier_fst_length]
    simp
  have hzero : (InverseFourier (Fourier [(0 : ℝ), 1] [(1 : ℂ), 0]).1
      (Fourier [(0 : ℝ), 1] [(1 : ℂ), 0]).2).2.getD 0 0 = 0 := by
    rw [hlist]
    rw [InverseFourier_snd_getD _ _ 0 (by rw [hrvlen]; norm_num)]
    rw [hrvlen]
    rw [fourier_uniform_spacing 2 1 [(1 : ℂ), 0] (by norm_num) (by norm_num)]
    rw [argsortFFT_pos 2 (2 * Real.pi / (((2 : ℕ) : ℝ) * 1)) 0 (by positivity)]
    rw [show sortPerm 2 0 = 1 from rfl]
    rw [ifft_fourier_uniform 2 1 [(1 : ℂ), 0] (by norm_num) (by norm_num) rfl 1 (by norm_num)]
    simp
  refine ⟨hzero, ?_⟩
  rw [hzero]
  simp only [List.getD]
  norm_num


/-- Witness for C1 (amended) at `n = 2`, `d = 1`, `f = [1, 0]`, `j = 1`: the
round trip returns `(2π/2)·f[sortPerm 2 1] = π·f[0]` at index 1. -/
theorem Fourier_roundtrip_scaled_witness :
    (InverseFourier (Fourier ((List.range 2).map (fun m : ℕ => (m : ℝ) * 1)) [(1 : ℂ), 0]).1
        (Fourier ((List.range 2).map (fun m : ℕ => (m : ℝ) * 1)) [(1 : ℂ), 0]).2).2.getD 1 0 =
      ((2 * Real.pi / ((2 : ℕ) : ℝ) : ℝ) : ℂ) * ([(1 : ℂ), 0]).getD (sortPerm 2 1) 0 :=
  Fourier_roundtrip_scaled 2 1 [(1 : ℂ), 0] (by norm_num) (by norm_num) rfl 1 (by norm_num)

end Photoluminescence
